import Mathlib

/-!
Shallow embedding of the pdf-chatbot-app core pipeline (chunker, ingestion
orchestrator, retrieval orchestrator) from src/server.js and the equivalent
route variants, together with theorems settling the specification claims.

Strings are modelled as lists of characters; JavaScript string operations
(slice, lastIndexOf, trim and truthiness of strings) are embedded explicitly.
The ingestion and retrieval orchestrators interact with external collaborators
(embedding service, vector store, completion service); those collaborators are
modelled as oracle functions returning Except values, so a failing request is
an error value and the orchestrator logic is translated faithfully around them.
The while loop of the chunker is embedded with explicit fuel, returning none
when the fuel runs out; this makes the possible non-termination of the source
loop observable rather than assumed away.
-/

namespace PdfChatbot

/-- Whitespace test matching the character class removed by the JavaScript
String.prototype.trim function: tab, line feed, vertical tab, form feed,
carriage return, space, no-break space, the Unicode space separators, line and
paragraph separators, and the byte-order mark. -/
def isJsWhitespace (c : Char) : Bool :=
  c = ' ' || c = '\t' || c = '\n' || c.toNat = 0x0b || c.toNat = 0x0c ||
  c = '\r' || c.toNat = 0xa0 || c.toNat = 0x1680 ||
  (0x2000 ≤ c.toNat && c.toNat ≤ 0x200a) ||
  c.toNat = 0x2028 || c.toNat = 0x2029 || c.toNat = 0x202f ||
  c.toNat = 0x205f || c.toNat = 0x3000 || c.toNat = 0xfeff

/-- JavaScript segment.trim(): remove leading and trailing whitespace. -/
def trimList (s : List Char) : List Char :=
  ((s.dropWhile isJsWhitespace).reverse.dropWhile isJsWhitespace).reverse

/-- Accumulator loop for lastIndexOf: i is the index of the head of the
remaining list, acc the last index seen so far (or -1). -/
def lastIndexOfAux (c : Char) : List Char → Nat → Int → Int
  | [], _, acc => acc
  | x :: xs, i, acc => lastIndexOfAux c xs (i + 1) (if x = c then (i : Int) else acc)

/-- JavaScript segment.lastIndexOf(c) for a one-character needle:
the greatest index holding c, or -1 when c does not occur. -/
def lastIndexOf (s : List Char) (c : Char) : Int :=
  lastIndexOfAux c s 0 (-1)

/-- JavaScript text.slice(start, stop) for nonnegative in-order arguments. -/
def jsSlice (text : List Char) (start stop : Nat) : List Char :=
  (text.drop start).take (stop - start)

/-- One iteration of the splitTextIntoChunks loop body, returning the end
position of the segment emitted from position start: the hard boundary
min (start + maxLength) text.length, unless this window is not final and the
last newline (preferred) or last space of the window sits at an offset
greater than 200, in which case the cut happens at that break point.
The segment pushed by the source is exactly text.slice(start, this stop). -/
def chunkStop (text : List Char) (maxLength start : Nat) : Nat :=
  let stop := min (start + maxLength) text.length
  let segment := jsSlice text start stop
  let lastNewline := lastIndexOf segment '\n'
  let lastSpace := lastIndexOf segment ' '
  if stop < text.length ∧ (lastNewline > 200 ∨ lastSpace > 200) then
    start + (if lastNewline > 200 then lastNewline else lastSpace).toNat
  else stop

/-- The while loop of splitTextIntoChunks (src/server.js lines 44-62), with
fuel; each iteration pushes the trimmed segment and continues at the stop
position. Returns none when the fuel is exhausted before the loop exits. -/
def chunkLoop (text : List Char) (maxLength : Nat) : Nat → Nat → Option (List (List Char))
  | 0, _ => none
  | fuel + 1, start =>
    if start < text.length then
      (chunkLoop text maxLength fuel (chunkStop text maxLength start)).map
        (trimList (jsSlice text start (chunkStop text maxLength start)) :: ·)
    else some []

/-- The same loop with the per-segment trim removed: each iteration pushes the
raw window text.slice(start, stop). Used to reason about the segments of the
source before the trim that line 58 applies when pushing. -/
def chunkLoopRaw (text : List Char) (maxLength : Nat) : Nat → Nat → Option (List (List Char))
  | 0, _ => none
  | fuel + 1, start =>
    if start < text.length then
      (chunkLoopRaw text maxLength fuel (chunkStop text maxLength start)).map
        (jsSlice text start (chunkStop text maxLength start) :: ·)
    else some []

/-- splitTextIntoChunks from src/server.js: run the loop from position 0 with
enough fuel for one iteration per character plus the final loop test. -/
def splitTextIntoChunks (text : List Char) (maxLength : Nat) : Option (List (List Char)) :=
  chunkLoop text maxLength (text.length + 1) 0

/-- splitTextIntoChunks with the per-segment trim removed. -/
def splitTextIntoChunksRaw (text : List Char) (maxLength : Nat) : Option (List (List Char)) :=
  chunkLoopRaw text maxLength (text.length + 1) 0

/-- The source loop never terminates on this input: every fuel bound is
exhausted. This is the shallow-embedding rendering of an infinite loop. -/
def chunkerDivergesAt (text : List Char) (maxLength : Nat) : Prop :=
  ∀ fuel, chunkLoop text maxLength fuel 0 = none

theorem lastIndexOfAux_lt (c : Char) (s : List Char) :
    ∀ (i : Nat) (acc : Int), acc < (i : Int) →
      lastIndexOfAux c s i acc < (i : Int) + s.length := by
  induction s with
  | nil => intro i acc h; simpa [lastIndexOfAux] using h
  | cons x xs ih =>
      intro i acc h
      have h1 : (if x = c then (i : Int) else acc) < ((i + 1 : Nat) : Int) := by
        split
        · push_cast; omega
        · push_cast; omega
      have h2 := ih (i + 1) _ h1
      simp only [lastIndexOfAux, List.length_cons]
      push_cast at h2 ⊢
      omega

theorem lastIndexOf_lt (s : List Char) (c : Char) :
    lastIndexOf s c < (s.length : Int) := by
  have h := lastIndexOfAux_lt c s 0 (-1) (by norm_num)
  simpa [lastIndexOf] using h

theorem jsSlice_length (text : List Char) (start stop : Nat) :
    (jsSlice text start stop).length = min (stop - start) (text.length - start) := by
  simp [jsSlice]

theorem jsSlice_append_drop (text : List Char) (start stop : Nat)
    (h : start ≤ stop) :
    jsSlice text start stop ++ text.drop stop = text.drop start := by
  have hdrop : text.drop stop = (text.drop start).drop (stop - start) := by
    rw [List.drop_drop]
    congr 1
    omega
  rw [jsSlice, hdrop, List.take_append_drop]

theorem jsSlice_all (text : List Char) : jsSlice text 0 text.length = text := by
  simp [jsSlice]

theorem chunkStop_ge (text : List Char) (maxLength start : Nat)
    (h : start < text.length) : start ≤ chunkStop text maxLength start := by
  simp only [chunkStop]
  split
  · exact Nat.le_add_right _ _
  · omega

theorem chunkStop_le (text : List Char) (maxLength start : Nat)
    (h : start < text.length) : chunkStop text maxLength start ≤ text.length := by
  have hln := lastIndexOf_lt (jsSlice text start (min (start + maxLength) text.length)) '\n'
  have hls := lastIndexOf_lt (jsSlice text start (min (start + maxLength) text.length)) ' '
  have hlen := jsSlice_length text start (min (start + maxLength) text.length)
  simp only [chunkStop]
  split
  · split <;> omega
  · omega

theorem chunkStop_gt (text : List Char) (maxLength start : Nat)
    (h : start < text.length) (hm : 1 ≤ maxLength) :
    start < chunkStop text maxLength start := by
  simp only [chunkStop]
  split
  case isTrue hcond =>
      have hor := hcond.2
      split <;> omega
  case isFalse hcond => omega

theorem chunkStop_sub_le (text : List Char) (maxLength start : Nat) :
    chunkStop text maxLength start - start ≤ maxLength := by
  have hln := lastIndexOf_lt (jsSlice text start (min (start + maxLength) text.length)) '\n'
  have hls := lastIndexOf_lt (jsSlice text start (min (start + maxLength) text.length)) ' '
  have hlen := jsSlice_length text start (min (start + maxLength) text.length)
  simp only [chunkStop]
  split
  · split <;> omega
  · omega

theorem chunkLoopRaw_join (text : List Char) (maxLength : Nat) :
    ∀ (fuel start : Nat) (segs : List (List Char)),
      chunkLoopRaw text maxLength fuel start = some segs →
      segs.flatten = text.drop start := by
  intro fuel
  induction fuel with
  | zero => intro start segs h; simp [chunkLoopRaw] at h
  | succ n ih =>
      intro start segs h
      simp only [chunkLoopRaw] at h
      by_cases hlt : start < text.length
      · rw [if_pos hlt] at h
        cases hr : chunkLoopRaw text maxLength n (chunkStop text maxLength start) with
        | none => rw [hr] at h; simp at h
        | some tail =>
            rw [hr] at h
            simp only [Option.map_some', Option.some.injEq] at h
            subst h
            simp only [List.flatten_cons]
            rw [ih _ _ hr, jsSlice_append_drop _ _ _ (chunkStop_ge text maxLength start hlt)]
      · rw [if_neg hlt] at h
        simp only [Option.some.injEq] at h
        subst h
        simp [List.drop_eq_nil_of_le (Nat.le_of_not_lt hlt)]

theorem chunkLoopRaw_length_le (text : List Char) (maxLength : Nat) :
    ∀ (fuel start : Nat) (segs : List (List Char)),
      chunkLoopRaw text maxLength fuel start = some segs →
      ∀ s ∈ segs, s.length ≤ maxLength := by
  intro fuel
  induction fuel with
  | zero => intro start segs h; simp [chunkLoopRaw] at h
  | succ n ih =>
      intro start segs h
      simp only [chunkLoopRaw] at h
      by_cases hlt : start < text.length
      · rw [if_pos hlt] at h
        cases hr : chunkLoopRaw text maxLength n (chunkStop text maxLength start) with
        | none => rw [hr] at h; simp at h
        | some tail =>
            rw [hr] at h
            simp only [Option.map_some', Option.some.injEq] at h
            subst h
            intro s hs
            rcases List.mem_cons.mp hs with rfl | hs2
            · have h1 := jsSlice_length text start (chunkStop text maxLength start)
              have h2 := chunkStop_sub_le text maxLength start
              omega
            · exact ih _ _ hr s hs2
      · rw [if_neg hlt] at h
        simp only [Option.some.injEq] at h
        subst h
        intro s hs
        simp at hs

theorem chunkLoop_eq_map_trim (text : List Char) (maxLength : Nat) :
    ∀ fuel start, chunkLoop text maxLength fuel start =
      (chunkLoopRaw text maxLength fuel start).map (List.map trimList) := by
  intro fuel
  induction fuel with
  | zero => intro start; rfl
  | succ n ih =>
      intro start
      simp only [chunkLoop, chunkLoopRaw]
      by_cases hlt : start < text.length
      · rw [if_pos hlt, if_pos hlt, ih]
        cases chunkLoopRaw text maxLength n (chunkStop text maxLength start) <;> simp
      · rw [if_neg hlt, if_neg hlt]; rfl

theorem chunkLoop_isSome (text : List Char) (maxLength : Nat) (hm : 1 ≤ maxLength) :
    ∀ (fuel start : Nat), text.length - start < fuel →
      (chunkLoop text maxLength fuel start).isSome = true := by
  intro fuel
  induction fuel with
  | zero => intro start h; omega
  | succ n ih =>
      intro start h
      simp only [chunkLoop]
      by_cases hlt : start < text.length
      · rw [if_pos hlt]
        have h1 := chunkStop_gt text maxLength start hlt hm
        have h2 := ih (chunkStop text maxLength start) (by omega)
        cases hc : chunkLoop text maxLength n (chunkStop text maxLength start) with
        | none => rw [hc] at h2; simp at h2
        | some tail => rfl
      · rw [if_neg hlt]; rfl

/-- Claim C1: for every text and maxLength, whenever the chunker loop
terminates, concatenating the segments it produces before the per-segment
trim reconstructs the original text exactly: the segments are contiguous
non-overlapping windows covering the whole input, and a cut at a break point
leaves the break character as the first character of the next segment. -/
theorem chunker_pretrim_concat_roundtrip (text : List Char) (maxLength : Nat)
    (segs : List (List Char))
    (h : splitTextIntoChunksRaw text maxLength = some segs) :
    segs.flatten = text := by
  have h2 := chunkLoopRaw_join text maxLength (text.length + 1) 0 segs h
  simpa using h2

/-- Witness for C1 at a concrete input: the raw segments of the text
hello world with maxLength 5 concatenate back to the text (the space cut in
front of worl is kept as the first character of the second segment). -/
theorem chunker_pretrim_concat_roundtrip_witness :
    splitTextIntoChunksRaw "hello world".data 5 =
      some ["hello".data, " worl".data, "d".data] ∧
    (["hello".data, " worl".data, "d".data] : List (List Char)).flatten =
      "hello world".data :=
  ⟨by decide, chunker_pretrim_concat_roundtrip "hello world".data 5 _ (by decide)⟩

set_option maxRecDepth 8000 in
/-- Claim C2: the chunker scans in windows of maxLength characters, cuts at
the last newline or space only when it sits at an offset above 200, and trims
each emitted segment. On the 250-character text of 50 A, one space and 199 B
with maxLength 100 no break point can exceed offset 200 inside a 100-character
window, so the first cut is the hard 100-character boundary: the chunks are
the trimmed first window of 50 A, the space and 49 B, then 100 B, then the
final 50 B. -/
theorem chunker_example_250 :
    splitTextIntoChunks (List.replicate 50 'A' ++ [' '] ++ List.replicate 199 'B') 100 =
      some [List.replicate 50 'A' ++ [' '] ++ List.replicate 49 'B',
            List.replicate 100 'B', List.replicate 50 'B'] := by decide

/-- Claim C3 counterexample: on the empty text the while loop body never runs,
so the chunker returns the empty list, not one element holding the trimmed
empty text. -/
theorem chunker_empty_text_counterexample :
    splitTextIntoChunks [] 1000 = some [] ∧
    ([] : List (List Char)) ≠ [trimList []] :=
  ⟨by decide, by decide⟩

/-- Claim C3 (amended): for every nonempty text strictly shorter than
maxLength the chunker returns exactly one element, the trimmed input; the
empty text yields the empty list instead. -/
theorem chunker_short_text_single_chunk (text : List Char) (maxLength : Nat)
    (hne : text ≠ []) (hlt : text.length < maxLength) :
    splitTextIntoChunks text maxLength = some [trimList text] := by
  obtain ⟨k, hk⟩ : ∃ k, text.length = k + 1 := by
    cases text with
    | nil => exact absurd rfl hne
    | cons a l => exact ⟨l.length, rfl⟩
  have hpos : 0 < text.length := by omega
  have hstop : chunkStop text maxLength 0 = text.length := by
    have hcond : ¬(min (0 + maxLength) text.length < text.length ∧
        (lastIndexOf (jsSlice text 0 (min (0 + maxLength) text.length)) '\n' > 200 ∨
         lastIndexOf (jsSlice text 0 (min (0 + maxLength) text.length)) ' ' > 200)) := by
      intro hc
      have h1 := hc.1
      omega
    simp only [chunkStop]
    rw [if_neg hcond]
    omega
  have hdone : chunkLoop text maxLength text.length text.length = some [] := by
    rw [hk]
    simp only [chunkLoop]
    rw [if_neg (by omega)]
  show chunkLoop text maxLength (text.length + 1) 0 = some [trimList text]
  simp only [chunkLoop]
  rw [if_pos hpos, hstop, hdone]
  have hall : jsSlice text 0 text.length = text := jsSlice_all text
  rw [hall]
  rfl

/-- Witness for C3 (amended) at a concrete input: the two-character text hi
with maxLength 1000 yields exactly one chunk, the trimmed input. -/
theorem chunker_short_text_single_chunk_witness :
    "hi".data ≠ [] ∧ ("hi".data : List Char).length < 1000 ∧
    splitTextIntoChunks "hi".data 1000 = some [trimList "hi".data] :=
  ⟨by decide, by decide,
   chunker_short_text_single_chunk "hi".data 1000 (by decide) (by decide)⟩

/-- Claim C4: whenever the chunker loop terminates, every segment it produces
has, before trimming, length at most maxLength: a cut at a break point only
shortens the window. -/
theorem chunker_segment_length_le (text : List Char) (maxLength : Nat)
    (segs : List (List Char))
    (h : splitTextIntoChunksRaw text maxLength = some segs) :
    ∀ s ∈ segs, s.length ≤ maxLength :=
  chunkLoopRaw_length_le text maxLength (text.length + 1) 0 segs h

/-- Witness for C4 at a concrete input: each raw segment of the text
hello world with maxLength 5 has length at most 5. -/
theorem chunker_segment_length_le_witness :
    splitTextIntoChunksRaw "hello world".data 5 =
      some ["hello".data, " worl".data, "d".data] ∧
    ∀ s ∈ (["hello".data, " worl".data, "d".data] : List (List Char)),
      s.length ≤ 5 :=
  ⟨by decide, chunker_segment_length_le "hello world".data 5 _ (by decide)⟩

/-- One loop iteration on the one-character text with maxLength zero: the stop
position stays at zero, so the loop never advances. -/
theorem chunkLoop_step_zero_maxLength (n : Nat) :
    chunkLoop ['a'] 0 (n + 1) 0 = (chunkLoop ['a'] 0 n 0).map (List.cons []) := rfl

/-- Claim C9 counterexample: with maxLength 0, a value the contract type
int admits, the loop never advances its scan position on the one-character
text, so no fuel bound suffices: the source while loop runs forever. -/
theorem chunker_diverges_maxLength_zero : chunkerDivergesAt ['a'] 0 := by
  intro fuel
  induction fuel with
  | zero => rfl
  | succ n ih => rw [chunkLoop_step_zero_maxLength, ih]; rfl

/-- Claim C9 (amended): for every text and every positive maxLength the
chunker terminates and returns a finite sequence of strings; a fuel budget of
one iteration per character suffices because the scan position strictly
increases on every iteration. -/
theorem chunker_terminates (text : List Char) (maxLength : Nat)
    (hm : 1 ≤ maxLength) :
    (splitTextIntoChunks text maxLength).isSome = true :=
  chunkLoop_isSome text maxLength hm (text.length + 1) 0 (by omega)

/-- Witness for C9 (amended) at a concrete input. -/
theorem chunker_terminates_witness :
    1 ≤ 1000 ∧ (splitTextIntoChunks "hello world".data 1000).isSome = true :=
  ⟨by decide, chunker_terminates "hello world".data 1000 (by decide)⟩

/-- Metadata stored with each vector record: the chunk text. -/
structure VectorMetadata where
  text : List Char
deriving DecidableEq

/-- One record accumulated for the batch upsert, as built at src/server.js
lines 91-95; the embedding values are kept abstract. -/
structure VectorRecord (α : Type) where
  id : String
  values : α
  metadata : VectorMetadata
deriving DecidableEq

/-- One batch upsert call to the vector store: the records and the namespace
they are written under. -/
structure UpsertCall (α : Type) where
  vectors : List (VectorRecord α)
  nspace : String
deriving DecidableEq

/-- The record id derived for the chunk at index i of the chunker output. -/
def chunkId (i : Nat) : String := "chunk-" ++ toString i

/-- The embed-and-accumulate loop of the upload route (src/server.js lines
82-96): walk the chunks with their indices, skip a chunk whose trimmed text
is empty, request an embedding for each remaining chunk from the embedding
collaborator, and push one record per success; the first failed request
aborts the whole loop with its error. -/
def buildVectors {α ε : Type} (embed : List Char → Except ε α) :
    List (List Char) → Nat → Except ε (List (VectorRecord α))
  | [], _ => Except.ok []
  | c :: rest, i =>
    if (trimList c).isEmpty then buildVectors embed rest (i + 1)
    else
      match embed c with
      | Except.error e => Except.error e
      | Except.ok v =>
          (buildVectors embed rest (i + 1)).map
            (fun vs => ⟨chunkId i, v, ⟨c⟩⟩ :: vs)

/-- The upload route body after chunking (src/server.js lines 80-105): build
the records, and if the accumulation is nonempty make exactly one batch
upsert call under the namespace pdf-chatbot, answering with the total chunk
count; a failed embedding reaches the catch block instead, so no upsert call
is made and the error is surfaced. The first component collects the upsert
calls performed, the second the outcome sent to the client. -/
def processUpload {α ε : Type} (embed : List Char → Except ε α)
    (textChunks : List (List Char)) : List (UpsertCall α) × Except ε Nat :=
  match buildVectors embed textChunks 0 with
  | Except.error e => ([], Except.error e)
  | Except.ok vectors =>
      (if vectors.length > 0 then [⟨vectors, "pdf-chatbot"⟩] else [],
       Except.ok textChunks.length)

/-- The upload route composed with the chunker at the default maxLength 1000:
the input is the extracted document text. -/
def uploadOfText {α ε : Type} (embed : List Char → Except ε α)
    (extractedText : List Char) : Option (List (UpsertCall α) × Except ε Nat) :=
  (splitTextIntoChunks extractedText 1000).map (processUpload embed)

/-- The chunks that survive the blank filter, paired with their index in the
original chunk list, starting the count at i. -/
def nonBlankIndexed : Nat → List (List Char) → List (Nat × List Char)
  | _, [] => []
  | i, c :: rest =>
    if (trimList c).isEmpty then nonBlankIndexed (i + 1) rest
    else (i, c) :: nonBlankIndexed (i + 1) rest

/-- Extract the success value of an oracle reply, used only under the
hypothesis that the reply is a success. -/
def getOk {α ε : Type} [Inhabited α] : Except ε α → α
  | Except.ok a => a
  | Except.error _ => default

/-- The ids of all records sent to the store across the upsert calls made. -/
def storedIds {α : Type} (calls : List (UpsertCall α)) : List String :=
  (calls.map (fun call => call.vectors.map (fun v => v.id))).flatten

/-- The metadata texts of all records sent to the store across the upsert
calls made. -/
def storedTexts {α : Type} (calls : List (UpsertCall α)) : List (List Char) :=
  (calls.map (fun call => call.vectors.map (fun v => v.metadata.text))).flatten

/-- Test double: an embedding collaborator that always succeeds. -/
def embedOkDouble : List Char → Except Unit Nat := fun _ => Except.ok 0

/-- Test double: an embedding collaborator that always fails. -/
def embedFailDouble : List Char → Except Unit Nat := fun _ => Except.error ()

theorem nonBlankIndexed_map_snd (chunks : List (List Char)) :
    ∀ i : Nat, (nonBlankIndexed i chunks).map Prod.snd =
      chunks.filter (fun c => !(trimList c).isEmpty) := by
  induction chunks with
  | nil => intro i; rfl
  | cons c rest ih =>
      intro i
      by_cases hb : (trimList c).isEmpty
      · simp [nonBlankIndexed, hb, ih (i + 1)]
      · simp [nonBlankIndexed, hb, ih (i + 1)]

theorem nonBlankIndexed_map_fst_all (chunks : List (List Char)) :
    ∀ i : Nat, (∀ c ∈ chunks, (trimList c).isEmpty = false) →
      (nonBlankIndexed i chunks).map Prod.fst = List.range' i chunks.length := by
  induction chunks with
  | nil => intro i _; rfl
  | cons c rest ih =>
      intro i h
      have hc := h c (List.mem_cons_self c rest)
      simp [nonBlankIndexed, hc, List.range'_succ,
        ih (i + 1) (fun d hd => h d (List.mem_cons_of_mem c hd))]

theorem nonBlankIndexed_eq_nil (chunks : List (List Char)) :
    ∀ i : Nat, (nonBlankIndexed i chunks = [] ↔
      ∀ c ∈ chunks, (trimList c).isEmpty = true) := by
  induction chunks with
  | nil => intro i; simp [nonBlankIndexed]
  | cons c rest ih =>
      intro i
      by_cases hb : (trimList c).isEmpty
      · simp [nonBlankIndexed, hb, ih (i + 1)]
        exact fun _ => by simpa using hb
      · simp [nonBlankIndexed, hb]
        exact fun h => absurd h (by simpa using hb)

theorem buildVectors_ok {α ε : Type} [Inhabited α]
    (embed : List Char → Except ε α) (chunks : List (List Char)) :
    ∀ i : Nat,
      (∀ c ∈ chunks, (trimList c).isEmpty = false → ∃ v, embed c = Except.ok v) →
      buildVectors embed chunks i =
        Except.ok ((nonBlankIndexed i chunks).map fun p =>
          ⟨chunkId p.1, getOk (embed p.2), ⟨p.2⟩⟩) := by
  induction chunks with
  | nil => intro i _; rfl
  | cons c rest ih =>
      intro i h
      have hrest := fun d hd => h d (List.mem_cons_of_mem c hd)
      by_cases hb : (trimList c).isEmpty
      · simp [buildVectors, nonBlankIndexed, hb, ih (i + 1) hrest]
      · obtain ⟨v, hv⟩ := h c (List.mem_cons_self c rest) (by simpa using hb)
        simp [buildVectors, nonBlankIndexed, hb, hv, ih (i + 1) hrest, getOk,
          Except.map]

theorem buildVectors_error {α ε : Type}
    (embed : List Char → Except ε α) (chunks : List (List Char)) :
    ∀ i : Nat,
      (∃ c ∈ chunks, (trimList c).isEmpty = false ∧ ∃ e, embed c = Except.error e) →
      ∃ e, buildVectors embed chunks i = Except.error e := by
  induction chunks with
  | nil => intro i h; simp at h
  | cons c rest ih =>
      intro i h
      obtain ⟨d, hd, hdb, e, he⟩ := h
      rcases List.mem_cons.mp hd with rfl | hd2
      · exact ⟨e, by simp [buildVectors, hdb, he]⟩
      · by_cases hb : (trimList c).isEmpty
        · simpa [buildVectors, hb] using ih (i + 1) ⟨d, hd2, hdb, e, he⟩
        · cases hc : embed c with
          | error e2 => exact ⟨e2, by simp [buildVectors, hb, hc]⟩
          | ok v =>
              obtain ⟨e3, he3⟩ := ih (i + 1) ⟨d, hd2, hdb, e, he⟩
              exact ⟨e3, by simp [buildVectors, hb, hc, he3, Except.map]⟩

/-- Claim C5 (amended): in an ingestion run whose embedding requests all
succeed, if at least one chunk is non-blank after trimming then exactly one
batch upsert call is made, under the fixed namespace pdf-chatbot, carrying
exactly one record per non-blank chunk in order (each record metadata text
being that chunk), and when every chunk is non-blank the record ids are the
sequential zero-based ids chunk-0 through chunk-(n-1); if no chunk is
non-blank, zero upsert calls are made and the request still succeeds,
returning the total chunk count, which is 0 for the empty document but can
be positive for an all-blank document. -/
theorem processUpload_upsert_spec {α ε : Type} [Inhabited α]
    (embed : List Char → Except ε α) (chunks : List (List Char))
    (hok : ∀ c ∈ chunks, (trimList c).isEmpty = false → ∃ v, embed c = Except.ok v) :
    ((∃ c ∈ chunks, (trimList c).isEmpty = false) →
        (processUpload embed chunks).1.length = 1 ∧
        (processUpload embed chunks).1.map (fun call => call.nspace) = ["pdf-chatbot"] ∧
        storedTexts (processUpload embed chunks).1 =
          chunks.filter (fun c => !(trimList c).isEmpty) ∧
        (processUpload embed chunks).2 = Except.ok chunks.length ∧
        ((∀ c ∈ chunks, (trimList c).isEmpty = false) →
          storedIds (processUpload embed chunks).1 =
            (List.range chunks.length).map chunkId)) ∧
    ((∀ c ∈ chunks, (trimList c).isEmpty = true) →
        (processUpload embed chunks).1 = [] ∧
        (processUpload embed chunks).2 = Except.ok chunks.length) := by
  have hbv := buildVectors_ok embed chunks 0 hok
  constructor
  · intro hex
    have hne : nonBlankIndexed 0 chunks ≠ [] := by
      intro hnil
      obtain ⟨c, hc, hcb⟩ := hex
      have hall := (nonBlankIndexed_eq_nil chunks 0).mp hnil c hc
      rw [hall] at hcb
      cases hcb
    obtain ⟨p, rest, hnb⟩ : ∃ p rest, nonBlankIndexed 0 chunks = p :: rest := by
      cases hq : nonBlankIndexed 0 chunks with
      | nil => exact absurd hq hne
      | cons p rest => exact ⟨p, rest, rfl⟩
    refine ⟨?_, ?_, ?_, ?_, ?_⟩
    · simp [processUpload, hbv, hnb, storedIds]
    · simp [processUpload, hbv, hnb, storedIds]
    · have hsnd := nonBlankIndexed_map_snd chunks 0
      simp only [processUpload, hbv, hnb]
      simp only [hnb] at hsnd
      simp [storedTexts, List.map_map, Function.comp_def]
      simpa using hsnd
    · simp [processUpload, hbv, hnb]
    · intro hall
      have hfst := nonBlankIndexed_map_fst_all chunks 0 hall
      simp only [processUpload, hbv, hnb]
      simp only [hnb] at hfst
      simp [storedIds, List.map_map, Function.comp_def]
      rw [List.range_eq_range', ← hfst, List.map_map]
      rfl
  · intro hall
    have hnil : nonBlankIndexed 0 chunks = [] :=
      (nonBlankIndexed_eq_nil chunks 0).mpr hall
    constructor
    · simp [processUpload, hbv, hnil]
    · simp [processUpload, hbv, hnil]

/-- Witness for C5 (amended) at a concrete run of two non-blank chunks: one
upsert call storing texts a and b under ids chunk-0 and chunk-1. -/
theorem processUpload_upsert_spec_witness :
    storedIds (processUpload embedOkDouble [['a'], ['b']]).1 =
      ["chunk-0", "chunk-1"] ∧
    storedTexts (processUpload embedOkDouble [['a'], ['b']]).1 = [['a'], ['b']] := by
  have h := processUpload_upsert_spec embedOkDouble [['a'], ['b']]
    (fun c hc hb => ⟨0, rfl⟩)
  have h1 := h.1 ⟨['a'], by decide, by decide⟩
  exact ⟨(h1.2.2.2.2 (by decide)).trans (by decide), h1.2.2.1.trans (by decide)⟩

/-- Claim C5 counterexample: ingesting the one-space document chunks it into
the single blank chunk, so no chunk is non-blank; zero upsert calls are made
and the request succeeds, but the response reports chunks = 1, not 0. -/
theorem uploadOfText_single_space_counterexample :
    uploadOfText embedOkDouble " ".data = some ([], Except.ok 1) ∧
    (∀ c ∈ [([] : List Char)], (trimList c).isEmpty = true) ∧
    (1 : Nat) ≠ 0 :=
  ⟨rfl, by decide, by decide⟩

/-- Claim C6: if the embedding request of some non-blank chunk fails, the
whole ingestion aborts with a single terminal error and the vector store is
left unchanged: no upsert call is ever made, because the one batch upsert
only happens after every embedding succeeded. -/
theorem processUpload_abort_on_failure {α ε : Type}
    (embed : List Char → Except ε α) (chunks : List (List Char))
    (hfail : ∃ c ∈ chunks,
      (trimList c).isEmpty = false ∧ ∃ e, embed c = Except.error e) :
    (processUpload embed chunks).1 = [] ∧
    ∃ e, (processUpload embed chunks).2 = Except.error e := by
  obtain ⟨e, he⟩ := buildVectors_error embed chunks 0 hfail
  exact ⟨by simp [processUpload, he], e, by simp [processUpload, he]⟩

/-- Witness for C6 at a concrete run: a single non-blank chunk whose
embedding request fails; no upsert call is made and the outcome is an
error. -/
theorem processUpload_abort_on_failure_witness :
    (processUpload embedFailDouble [['a']]).1 = [] ∧
    ∃ e, (processUpload embedFailDouble [['a']]).2 = Except.error e :=
  processUpload_abort_on_failure embedFailDouble [['a']]
    ⟨['a'], by decide, by decide, (), rfl⟩

/-- Claim C10: every stored record id is chunk- followed by the index of its
chunk in the chunker output before the blank filter: blank chunks are skipped
but still consume index positions, so the stored ids are exactly those of the
non-blank positions and need not be contiguous. -/
theorem processUpload_ids_prefilter_index {α ε : Type} [Inhabited α]
    (embed : List Char → Except ε α) (chunks : List (List Char))
    (hok : ∀ c ∈ chunks, (trimList c).isEmpty = false → ∃ v, embed c = Except.ok v) :
    storedIds (processUpload embed chunks).1 =
      (nonBlankIndexed 0 chunks).map (fun p => chunkId p.1) := by
  have hbv := buildVectors_ok embed chunks 0 hok
  cases hnb : nonBlankIndexed 0 chunks with
  | nil => simp [processUpload, hbv, hnb, storedIds]
  | cons p rest =>
      simp [processUpload, hbv, hnb, storedIds, List.map_map, Function.comp_def]

/-- Witness for C10 at the run with chunks nonblank, blank, nonblank: the
stored ids are chunk-0 and chunk-2; no record with id chunk-1 exists and the
two stored records are fewer than the largest stored index plus one. -/
theorem processUpload_ids_prefilter_index_witness :
    storedIds (processUpload embedOkDouble [['a'], [], ['b']]).1 =
      ["chunk-0", "chunk-2"] :=
  (processUpload_ids_prefilter_index embedOkDouble [['a'], [], ['b']]
    (fun c hc hb => ⟨0, rfl⟩)).trans (by decide)

/-- Metadata returned with a similarity match; the text field may be
absent. -/
structure MatchMetadata where
  text : Option (List Char)
deriving DecidableEq

/-- One similarity match returned by the vector store query; the metadata
object itself may be absent. -/
structure QueryMatch where
  metadata : Option MatchMetadata
deriving DecidableEq

/-- The optional chain match.metadata?.text of src/server.js line 138. -/
def matchText (m : QueryMatch) : Option (List Char) :=
  m.metadata.bind (fun md => md.text)

/-- The context accumulation loop of src/server.js lines 136-141: for each
match, append its metadata text plus a newline when that text is present and
truthy; a present but empty text is falsy in JavaScript, so the guard skips
it and nothing is appended. -/
def buildContext : List QueryMatch → List Char
  | [] => []
  | m :: rest =>
    (match matchText m with
     | some t => if t.isEmpty then [] else t ++ ['\n']
     | none => []) ++ buildContext rest

/-- The placeholder sentence of src/server.js line 143. -/
def placeholderText : List Char := "The document is empty or not relevant.".data

/-- Lines 142-144: substitute the placeholder when the accumulated context
trims to the empty string. -/
def finalContext (qmatches : List QueryMatch) : List Char :=
  if (trimList (buildContext qmatches)).isEmpty then placeholderText
  else buildContext qmatches

/-- One message of the completion prompt. -/
structure ChatMessage where
  role : List Char
  content : List Char
deriving DecidableEq

/-- The fixed system instruction of src/server.js line 147. -/
def systemInstructionText : List Char :=
  "You are a helpful assistant. Use the provided document text to answer the question.".data

/-- The two-message prompt built at src/server.js lines 146-149. -/
def chatMessages (question : List Char) (qmatches : List QueryMatch) :
    List ChatMessage :=
  [⟨"system".data, systemInstructionText⟩,
   ⟨"user".data,
     finalContext qmatches ++ ['\n'] ++ "Question: ".data ++ question ++
       "\nAnswer:".data⟩]

/-- The delta of one streamed completion part. -/
structure ChatDelta where
  content : Option (List Char)
deriving DecidableEq

/-- One streamed completion part, modelled as its sole choice: an optional
delta and an optional finish reason. -/
structure ChatPart where
  delta : Option ChatDelta
  finish_reason : Option (List Char)
deriving DecidableEq

/-- JavaScript truthiness of an optional string: present and nonempty. -/
def jsTruthy : Option (List Char) → Bool
  | none => false
  | some s => !s.isEmpty

/-- One server-sent event carrying the given payload. -/
def sseWrite (payload : List Char) : List Char :=
  "data: ".data ++ payload ++ "\n\n".data

/-- The relay loop of src/server.js lines 156-164: for each part pulled from
the completion stream, write the delta content when truthy and break when
the finish reason is truthy; pulling the next part can itself fail, which
throws out of the loop. Returns the events written inside the loop together
with whether the loop ended normally or threw. -/
def relayStream {ε : Type} :
    List (Except ε ChatPart) → List (List Char) × Except ε Unit
  | [] => ([], Except.ok ())
  | Except.error e :: _ => ([], Except.error e)
  | Except.ok part :: rest =>
    let content := (part.delta.bind (fun d => d.content)).getD []
    let events := if content.isEmpty then [] else [sseWrite content]
    if jsTruthy part.finish_reason then (events, Except.ok ())
    else (events ++ (relayStream rest).1, (relayStream rest).2)

/-- The chat route body after question validation (src/server.js lines
120-171): embed the question, query the store, build the prompt from the
qmatches, open the completion stream and relay it. Any failure thrown in
those steps reaches the catch block, which writes the same end-of-stream
sentinel that the normal path writes after the loop. The collaborators are
oracle values; the result is the list of events written to the response. -/
def chatHandler {ε α : Type} (question : List Char)
    (embedQuestion : Except ε α)
    (queryStore : α → Except ε (List QueryMatch))
    (createCompletion : List ChatMessage → Except ε (List (Except ε ChatPart))) :
    List (List Char) :=
  match embedQuestion with
  | Except.error _ => [sseWrite "[DONE]".data]
  | Except.ok qvec =>
    match queryStore qvec with
    | Except.error _ => [sseWrite "[DONE]".data]
    | Except.ok qmatches =>
      match createCompletion (chatMessages question qmatches) with
      | Except.error _ => [sseWrite "[DONE]".data]
      | Except.ok parts =>
          (relayStream parts).1 ++ [sseWrite "[DONE]".data]

/-- Claim C7: for every retrieval request that passes question validation,
the emitted event stream ends with the sentinel event DONE: on normal
completion, on empty match results, and on any failure while embedding,
querying, building the prompt, opening the completion stream or relaying
it. Failures are converted into the same sentinel termination; the handler
never throws, which the model renders by chatHandler being a total function
into plain event lists with no error outcome. -/
theorem chatHandler_ends_with_done {ε α : Type} (question : List Char)
    (embedQuestion : Except ε α)
    (queryStore : α → Except ε (List QueryMatch))
    (createCompletion : List ChatMessage → Except ε (List (Except ε ChatPart))) :
    (chatHandler question embedQuestion queryStore createCompletion).getLast? =
      some (sseWrite "[DONE]".data) := by
  unfold chatHandler
  split
  · rfl
  · split
    · rfl
    · split
      · rfl
      · exact List.getLast?_concat _

/-- Context construction exactly as claim C8 states it: concatenate the text
metadata field of each returned match, each followed by a newline, and
substitute the placeholder only when the resulting context is empty. -/
def claimedFinalContext (qmatches : List QueryMatch) : List Char :=
  let ctx := ((qmatches.filterMap matchText).map (fun t => t ++ ['\n'])).flatten
  if ctx.isEmpty then placeholderText else ctx

/-- Claim C8 counterexample: two qmatches carrying the texts one-space and
empty. The code skips the empty text (falsy) and accumulates only the
one-space text, so the context is the nonempty string of a space and a
newline, which trims to empty, and the placeholder is substituted; the claim
as stated instead predicts the nonempty context of both texts and no
substitution. -/
theorem finalContext_counterexample :
    finalContext [⟨some ⟨some [' ']⟩⟩, ⟨some ⟨some []⟩⟩] = placeholderText ∧
    claimedFinalContext [⟨some ⟨some [' ']⟩⟩, ⟨some ⟨some []⟩⟩] =
      [' ', '\n', '\n'] ∧
    placeholderText ≠ [' ', '\n', '\n'] :=
  ⟨by decide, by decide, by decide⟩

/-- Claim C8 (amended): the context string is built by concatenating the
text metadata field of each returned match whose text is present and
nonempty, in store order, each followed by a newline; if the context is
blank, that is, trims to the empty string (in particular when no match
carries text), the fixed placeholder sentence is substituted; and the prompt
is exactly two messages: the fixed system instruction, and a user message of
the context followed by a newline, the literal Question: label, the
question, and the Answer: cue. -/
theorem chatMessages_spec (question : List Char) (qmatches : List QueryMatch) :
    buildContext qmatches =
      (((qmatches.filterMap matchText).filter (fun t => !t.isEmpty)).map
        (fun t => t ++ ['\n'])).flatten ∧
    chatMessages question qmatches =
      [⟨"system".data, systemInstructionText⟩,
       ⟨"user".data,
         (if (trimList (buildContext qmatches)).isEmpty then placeholderText
          else buildContext qmatches) ++ ['\n'] ++ "Question: ".data ++
           question ++ "\nAnswer:".data⟩] := by
  constructor
  · induction qmatches with
    | nil => rfl
    | cons m rest ih =>
        cases hmt : matchText m with
        | none => simp [buildContext, hmt, ih]
        | some t =>
            by_cases ht : t.isEmpty
            · simp [buildContext, hmt, ht, ih]
            · simp [buildContext, hmt, ht, ih]
  · rfl

end PdfChatbot
